import Mathlib

/-!
Verification development for the CR-Data battle-log aggregation engine.

The definitions below are a shallow embedding of the TypeScript source:
 - PlayerUsageStats.tsx   (card / deck / tower aggregation, deck canonicalization)
 - PlayerMatchupStats (BattleLogAnalytics.tsx, second component: opponent matchups)
 - royale-utils (getArchetype and its WIN_CONDITIONS table)
 - ArchetypeMatchupHeatmap.tsx (consumer of precomputed z-scores)

JavaScript semantics are modelled explicitly:
 - JS Map / plain-object maps with string keys are association lists in
   insertion order (Map.set and object property creation append; updates
   keep position).
 - Field accesses that throw a TypeError on undefined are Except.error.
 - Numbers are Nat / Rat (counters and win rates are exact here).
-/

structure IconUrls where
  medium : String
  evolutionMedium : Option String
  heroMedium : Option String
deriving DecidableEq, Repr

structure Card where
  name : String
  id : Nat
  iconUrls : IconUrls
  evolutionLevel : Option Nat
deriving DecidableEq, Repr

structure TeamPlayer where
  tag : String
  cards : Option (List Card)
  supportCards : Option (List Card)
  crowns : Option Nat
  startingTrophies : Option Nat
deriving DecidableEq, Repr

structure Battle where
  type : String
  team : List TeamPlayer
  opponent : List TeamPlayer
  gameModeName : Option String
deriving DecidableEq, Repr

/-- JS `Map.set m k v`: if the key is present the value is replaced in place,
otherwise the pair is appended (JS Maps iterate in insertion order). -/
def mapSet (m : List (String × Card)) (k : String) (v : Card) : List (String × Card) :=
  if m.any (fun p => p.1 = k) then
    m.map (fun p => if p.1 = k then (k, v) else p)
  else m ++ [(k, v)]

/-- Model of `uniqueCardsMap` from PlayerUsageStats: de-duplicate the card
list by name via repeated `Map.set`. -/
def uniqueCardsMap (cards : List Card) : List (String × Card) :=
  cards.foldl (fun m c => mapSet m c.name c) []

/-- The distinct card names in first-occurrence order (the key set of
`uniqueCardsMap`). -/
def dedupNames (cards : List Card) : List String :=
  (uniqueCardsMap cards).map Prod.fst

/-- The comparator used on cards: `(a, b) => a.name.localeCompare(b.name)`,
modelled with lexicographic string order. -/
def nameLe (a b : Card) : Prop := a.name ≤ b.name

instance : DecidableRel nameLe := fun a b => inferInstanceAs (Decidable (a.name ≤ b.name))

/-- Sorting of the de-duplicated card values with the name comparator. -/
def sortCardsByName (cs : List Card) : List Card :=
  List.insertionSort nameLe cs

/-- Deck canonicalization from PlayerUsageStats: de-duplicate by name, sort
ascending by name, and slice to the first 8 when more than 8 remain. -/
def canonicalDeckCards (cards : List Card) : List Card :=
  let sorted := sortCardsByName ((uniqueCardsMap cards).map Prod.snd)
  if 8 < sorted.length then sorted.take 8 else sorted

/-- The DeckKey string: the canonical card names joined with a comma. -/
def deckKeyOf (cards : List Card) : String :=
  String.intercalate "," ((canonicalDeckCards cards).map Card.name)

theorem mapSet_keys (m : List (String × Card)) (k : String) (v : Card) :
    (mapSet m k v).map Prod.fst =
      if m.any (fun p => p.1 = k) then m.map Prod.fst else m.map Prod.fst ++ [k] := by
  unfold mapSet
  split
  · rw [List.map_map]
    refine List.map_congr_left ?_
    intro p _
    by_cases h : p.1 = k <;> simp [h]
  · simp

theorem mapSet_keys_mem (m : List (String × Card)) (k : String) (v : Card) (a : String) :
    a ∈ (mapSet m k v).map Prod.fst ↔ a ∈ m.map Prod.fst ∨ a = k := by
  rw [mapSet_keys]
  split
  · rename_i h
    simp only [List.any_eq_true, decide_eq_true_eq] at h
    obtain ⟨p, hp, hk⟩ := h
    constructor
    · exact Or.inl
    · rintro (ha | rfl)
      · exact ha
      · exact List.mem_map.mpr ⟨p, hp, hk⟩
  · simp

theorem mapSet_keys_nodup (m : List (String × Card)) (k : String) (v : Card)
    (h : (m.map Prod.fst).Nodup) : ((mapSet m k v).map Prod.fst).Nodup := by
  rw [mapSet_keys]
  split
  · exact h
  · rename_i hany
    simp only [List.any_eq_true, decide_eq_true_eq, not_exists, not_and] at hany
    refine List.Nodup.append h (List.nodup_singleton k) ?_
    intro a ha hk
    simp only [List.mem_singleton] at hk
    subst hk
    obtain ⟨p, hp, hpa⟩ := List.mem_map.mp ha
    exact hany p hp hpa

theorem mapSet_name_inv (m : List (String × Card)) (k : String) (v : Card)
    (hv : v.name = k) (h : ∀ p ∈ m, (Prod.snd p).name = p.1) :
    ∀ p ∈ mapSet m k v, (Prod.snd p).name = p.1 := by
  unfold mapSet
  split
  · intro p hp
    obtain ⟨q, hq, hqp⟩ := List.mem_map.mp hp
    by_cases hq1 : q.1 = k
    · simp only [hq1, if_pos rfl] at hqp
      rw [← hqp]
      exact hv
    · simp only [if_neg hq1] at hqp
      rw [← hqp]
      exact h q hq
  · intro p hp
    rcases List.mem_append.mp hp with hp | hp
    · exact h p hp
    · simp only [List.mem_singleton] at hp
      rw [hp]
      exact hv

/-- Generic preservation of a predicate along a left fold. -/
theorem foldl_preserve {α σ : Type} (f : σ → α → σ) (Q : σ → Prop)
    (h : ∀ s a, Q s → Q (f s a)) : ∀ (l : List α) (s : σ), Q s → Q (l.foldl f s) := by
  intro l
  induction l with
  | nil => intro s hs; exact hs
  | cons a as ih => intro s hs; exact ih (f s a) (h s a hs)

theorem dedupNames_nodup (cards : List Card) : (dedupNames cards).Nodup := by
  unfold dedupNames uniqueCardsMap
  exact foldl_preserve _ (fun m => (m.map Prod.fst).Nodup)
    (fun m c hm => mapSet_keys_nodup m c.name c hm) cards [] (by simp)

theorem uniqueCardsMap_name_inv (cards : List Card) :
    ∀ p ∈ uniqueCardsMap cards, (Prod.snd p).name = p.1 := by
  unfold uniqueCardsMap
  exact foldl_preserve _ (fun m => ∀ p ∈ m, (Prod.snd p).name = p.1)
    (fun m c hm => mapSet_name_inv m c.name c rfl hm) cards [] (by simp)

theorem dedupNames_mem (cards : List Card) (a : String) :
    a ∈ dedupNames cards ↔ a ∈ cards.map Card.name := by
  unfold dedupNames uniqueCardsMap
  suffices h : ∀ (cs : List Card) (m : List (String × Card)),
      (a ∈ ((cs.foldl (fun m c => mapSet m c.name c) m).map Prod.fst) ↔
        a ∈ m.map Prod.fst ∨ a ∈ cs.map Card.name) by
    rw [h cards []]
    simp
  intro cs
  induction cs with
  | nil => intro m; simp
  | cons c cs ih =>
    intro m
    simp only [List.foldl_cons, List.map_cons, List.mem_cons]
    rw [ih (mapSet m c.name c), mapSet_keys_mem]
    tauto


theorem orderedInsert_map_name (c : Card) (l : List Card) :
    (List.orderedInsert nameLe c l).map Card.name =
      List.orderedInsert (· ≤ ·) c.name (l.map Card.name) := by
  induction l with
  | nil => simp [List.orderedInsert]
  | cons b bs ih =>
    by_cases h : c.name ≤ b.name
    · simp [List.orderedInsert, nameLe, h]
    · simp [List.orderedInsert, nameLe, h, ih]

theorem sortCards_map_name (l : List Card) :
    (List.insertionSort nameLe l).map Card.name =
      List.insertionSort (· ≤ ·) (l.map Card.name) := by
  induction l with
  | nil => simp
  | cons c cs ih => simp [List.insertionSort, orderedInsert_map_name, ih]

theorem values_map_name (cards : List Card) :
    ((uniqueCardsMap cards).map Prod.snd).map Card.name = dedupNames cards := by
  unfold dedupNames
  rw [List.map_map]
  exact List.map_congr_left (fun p hp => uniqueCardsMap_name_inv cards p hp)

theorem canonical_names (cards : List Card) :
    (canonicalDeckCards cards).map Card.name =
      if 8 < (dedupNames cards).length then
        (List.insertionSort (· ≤ ·) (dedupNames cards)).take 8
      else List.insertionSort (· ≤ ·) (dedupNames cards) := by
  unfold canonicalDeckCards sortCardsByName
  have hmap : (List.insertionSort nameLe ((uniqueCardsMap cards).map Prod.snd)).map Card.name
      = List.insertionSort (· ≤ ·) (dedupNames cards) := by
    rw [sortCards_map_name, values_map_name]
  have hlen : (List.insertionSort nameLe ((uniqueCardsMap cards).map Prod.snd)).length
      = (dedupNames cards).length := by
    have h1 := congrArg List.length hmap
    rw [List.length_map] at h1
    rw [h1, (List.perm_insertionSort _ _).length_eq]
  simp only [hlen]
  split
  · rw [List.map_take, hmap]
  · exact hmap

theorem dedupNames_length_eq (cards : List Card) :
    (dedupNames cards).length = ((cards.map Card.name).dedup).length := by
  refine List.Perm.length_eq ?_
  refine (List.perm_ext_iff_of_nodup (dedupNames_nodup cards) (List.nodup_dedup _)).mpr ?_
  intro a
  rw [dedupNames_mem, List.mem_dedup]

/-- C1: for a self side reporting more than 8 distinct card names,
canonicalization de-duplicates by name, sorts ascending by name and truncates
to exactly the first 8 names in sorted order; the DeckKey is the join of those
first 8 sorted names. -/
theorem spec_c1_deck_truncation (cards : List Card)
    (h : 8 < ((cards.map Card.name).dedup).length) :
    (canonicalDeckCards cards).map Card.name
        = (List.insertionSort (· ≤ ·) (dedupNames cards)).take 8
      ∧ ((canonicalDeckCards cards).map Card.name).length = 8
      ∧ List.Sorted (· ≤ ·) ((canonicalDeckCards cards).map Card.name)
      ∧ deckKeyOf cards
        = String.intercalate "," ((List.insertionSort (· ≤ ·) (dedupNames cards)).take 8) := by
  have hlen : 8 < (dedupNames cards).length := by
    rw [dedupNames_length_eq]; exact h
  have hslen : 8 < (List.insertionSort (· ≤ ·) (dedupNames cards)).length := by
    rw [(List.perm_insertionSort _ _).length_eq]; exact hlen
  have hcn : (canonicalDeckCards cards).map Card.name
      = (List.insertionSort (· ≤ ·) (dedupNames cards)).take 8 := by
    rw [canonical_names, if_pos hlen]
  refine ⟨hcn, ?_, ?_, ?_⟩
  · rw [hcn, List.length_take]
    omega
  · rw [hcn]
    exact List.Pairwise.sublist (List.take_sublist 8 _)
      (List.sorted_insertionSort (· ≤ ·) (dedupNames cards))
  · unfold deckKeyOf
    rw [hcn]

/-- C2: the canonical DeckKey is invariant under permutation of the input
card array. -/
theorem spec_c2_deckkey_perm_invariant (cards cards2 : List Card)
    (h : cards.Perm cards2) : deckKeyOf cards = deckKeyOf cards2 := by
  have hmem : ∀ a, a ∈ dedupNames cards ↔ a ∈ dedupNames cards2 := by
    intro a
    rw [dedupNames_mem, dedupNames_mem]
    exact (h.map Card.name).mem_iff
  have hperm : (dedupNames cards).Perm (dedupNames cards2) :=
    (List.perm_ext_iff_of_nodup (dedupNames_nodup _) (dedupNames_nodup _)).mpr hmem
  have hsort : List.insertionSort (· ≤ ·) (dedupNames cards)
      = List.insertionSort (· ≤ ·) (dedupNames cards2) := by
    refine List.eq_of_perm_of_sorted ?_ (List.sorted_insertionSort _ _)
      (List.sorted_insertionSort _ _)
    exact (List.perm_insertionSort _ _).trans
      (hperm.trans (List.perm_insertionSort _ _).symm)
  unfold deckKeyOf
  rw [canonical_names, canonical_names, hperm.length_eq, hsort]

/-- The `WIN_CONDITIONS` table from royale-utils, as the ordered list of
entries that `Object.entries` yields (string-keyed insertion order). -/
def WIN_CONDITIONS : List (String × List String) := [
  ("Beatdown", ["Golem", "Lava Hound", "Giant", "Electro Giant", "Goblin Giant",
                "Royal Giant", "Elixir Golem"]),
  ("Siege", ["X-Bow", "Mortar"]),
  ("Control", ["Miner", "Graveyard", "Goblin Barrel", "Wall Breakers",
               "Skeleton Barrel"]),
  ("Cycle", ["Hog Rider", "Royal Hogs", "Ram Rider", "Battle Ram"]),
  ("Bridge Spam", ["P.E.K.K.A", "Mega Knight", "Elite Barbarians",
                   "Royal Recruits"]),
  ("Air", ["Balloon"]),
  ("Three Musketeers", ["Three Musketeers"])]

/-- Model of `getArchetype` from royale-utils: return the label of the first table entry
one of whose trigger names occurs among the card names, else Unknown. -/
def getArchetype (cards : List Card) : String :=
  match WIN_CONDITIONS.find?
      (fun e => e.2.any (fun wc => (cards.map Card.name).contains wc)) with
  | some e => e.1
  | none => "Unknown"

/-- A table entry triggers on a card-name list when some trigger name occurs
in it. -/
def triggersOn (e : String × List String) (names : List String) : Prop :=
  ∃ wc ∈ e.2, wc ∈ names

instance (e : String × List String) (names : List String) :
    Decidable (triggersOn e names) :=
  inferInstanceAs (Decidable (∃ wc ∈ e.2, wc ∈ names))

theorem triggersOn_eq_pred (e : String × List String) (names : List String) :
    (e.2.any (fun wc => names.contains wc) = true) ↔ triggersOn e names := by
  simp [triggersOn, List.any_eq_true]

/-- C3: classification returns the label of the first table entry whose
trigger set shares a name with the card list, and Unknown when no entry does;
a deck matching two archetypes is assigned the earlier one in table order. -/
theorem spec_c3_archetype_first_match (cards : List Card) :
    (∀ (l1 : List (String × List String)) (e : String × List String)
        (l2 : List (String × List String)),
      WIN_CONDITIONS = l1 ++ e :: l2 →
      (∀ e2 ∈ l1, ¬ triggersOn e2 (cards.map Card.name)) →
      triggersOn e (cards.map Card.name) →
      getArchetype cards = e.1) ∧
    ((∀ e2 ∈ WIN_CONDITIONS, ¬ triggersOn e2 (cards.map Card.name)) →
      getArchetype cards = "Unknown") := by
  constructor
  · intro l1 e l2 htable hnone htrig
    unfold getArchetype
    have h1 : (l1.find? (fun e => e.2.any (fun wc => (cards.map Card.name).contains wc)))
        = none := by
      rw [List.find?_eq_none]
      intro x hx hcontra
      exact hnone x hx ((triggersOn_eq_pred x _).mp hcontra)
    have h2 : ((e :: l2).find? (fun e => e.2.any (fun wc => (cards.map Card.name).contains wc)))
        = some e := by
      rw [List.find?_cons_of_pos]
      exact (triggersOn_eq_pred e _).mpr htrig
    rw [htable, List.find?_append, h1, h2]
    rfl
  · intro hnone
    unfold getArchetype
    have h1 : (WIN_CONDITIONS.find?
        (fun e => e.2.any (fun wc => (cards.map Card.name).contains wc))) = none := by
      rw [List.find?_eq_none]
      intro x hx hcontra
      exact hnone x hx ((triggersOn_eq_pred x _).mp hcontra)
    rw [h1]

/-- Pattern match at the head of a character list. -/
def matchesAt : List Char → List Char → Bool
  | [], _ => true
  | _ :: _, [] => false
  | p :: ps, c :: cs => p = c && matchesAt ps cs

/-- Substring occurrence over character lists. -/
def hasSub : List Char → List Char → Bool
  | pat, [] => matchesAt pat []
  | pat, c :: cs => matchesAt pat (c :: cs) || hasSub pat cs

/-- JS `s.includes(pat)`. -/
def strIncludes (s pat : String) : Bool := hasSub pat.toList s.toList

/-- Variant detection: `evolutionLevel || 0`, level 1 means Evolution; when the
level is 0 fall back to an icon-reference substring check. -/
def cardIsEvo (c : Card) : Bool :=
  let level := c.evolutionLevel.getD 0
  if level = 1 then true
  else if level = 0 then strIncludes c.iconUrls.medium "evo"
  else false

/-- Level 2 means Hero; the icon fallback fires only when the level is 0 and
the evo check did not match (else-if in the source). -/
def cardIsHero (c : Card) : Bool :=
  let level := c.evolutionLevel.getD 0
  if level = 2 then true
  else if level = 0 then
    !strIncludes c.iconUrls.medium "evo" && strIncludes c.iconUrls.medium "hero"
  else false

/-- Replace the displayed icon with the variant-correct one when available. -/
def processCard (c : Card) : Card :=
  let icon :=
    if cardIsEvo c then c.iconUrls.evolutionMedium.getD c.iconUrls.medium
    else if cardIsHero c then c.iconUrls.heroMedium.getD c.iconUrls.medium
    else c.iconUrls.medium
  { c with iconUrls := { c.iconUrls with medium := icon } }

/-- The `name:EVO` / `name:HERO` tokens pushed while mapping the canonical
cards, in card order. -/
def variantParts (sortedCards : List Card) : List String :=
  sortedCards.foldr (fun c acc =>
    (if cardIsEvo c then [c.name ++ ":EVO"] else []) ++
    (if cardIsHero c then [c.name ++ ":HERO"] else []) ++ acc) []

/-- The VariantKey: the sorted variant tokens joined with a bar, with BASE
for an empty token list (JS falsy empty string). -/
def variantKeyOf (sortedCards : List Card) : String :=
  match List.insertionSort (· ≤ ·) (variantParts sortedCards) with
  | [] => "BASE"
  | parts => String.intercalate "|" parts

structure CardBucket where
  count : Nat
  wins : Nat
  card : Card
deriving DecidableEq, Repr

structure VariantBucket where
  count : Nat
  wins : Nat
  cards : List Card
deriving DecidableEq, Repr

structure DeckBucket where
  count : Nat
  wins : Nat
  variants : List (String × VariantBucket)
deriving DecidableEq, Repr

structure UsageState where
  cardCounts : List (String × CardBucket)
  deckCounts : List (String × DeckBucket)
deriving DecidableEq, Repr

/-- JS plain-object update with string keys: create the entry at the end when
absent (insertion order), then apply the in-place update. -/
def updateAssoc {β : Type} (m : List (String × β)) (k : String) (init : β)
    (upd : β → β) : List (String × β) :=
  if m.any (fun p => p.1 = k) then
    m.map (fun p => if p.1 = k then (p.1, upd p.2) else p)
  else m ++ [(k, upd init)]

def boolToNat (b : Bool) : Nat := if b then 1 else 0

def bumpCard (m : List (String × CardBucket)) (c : Card) (isWin : Bool) :
    List (String × CardBucket) :=
  updateAssoc m c.name ⟨0, 0, c⟩
    (fun b => ⟨b.count + 1, b.wins + boolToNat isWin, b.card⟩)

def bumpVariant (vs : List (String × VariantBucket)) (vkey : String)
    (pcards : List Card) (isWin : Bool) : List (String × VariantBucket) :=
  updateAssoc vs vkey ⟨0, 0, pcards⟩
    (fun v => ⟨v.count + 1, v.wins + boolToNat isWin, v.cards⟩)

def bumpDeck (ds : List (String × DeckBucket)) (dkey vkey : String)
    (pcards : List Card) (isWin : Bool) : List (String × DeckBucket) :=
  updateAssoc ds dkey ⟨0, 0, []⟩
    (fun d => ⟨d.count + 1, d.wins + boolToNat isWin,
               bumpVariant d.variants vkey pcards isWin⟩)

/-- Resolution of the self side: the team entry whose tag matches the player
tag, else the first team entry when any exists. -/
def resolveTeam (tag : String) (b : Battle) : Option TeamPlayer :=
  (b.team.find? (fun t => t.tag == tag)).orElse (fun _ => b.team.head?)

/-- The card-count and deck-count updates of one qualifying battle: count
every card, then (unless the canonical deck is empty) count the deck bucket
and its variant. -/
def usageUpdate (st : UsageState) (cards : List Card) (isWin : Bool) : UsageState :=
  if (canonicalDeckCards cards).length = 0 then
    ⟨cards.foldl (fun m c => bumpCard m c isWin) st.cardCounts, st.deckCounts⟩
  else
    ⟨cards.foldl (fun m c => bumpCard m c isWin) st.cardCounts,
     bumpDeck st.deckCounts
       (String.intercalate "," ((canonicalDeckCards cards).map Card.name))
       (variantKeyOf (canonicalDeckCards cards))
       ((canonicalDeckCards cards).map processCard) isWin⟩

/-- One iteration of the card/deck counting loop of PlayerUsageStats.
`playerTeam.crowns` and `battle.opponent[0].crowns` are read before the
`!playerTeam || !playerTeam.cards` guard, so an absent team or an empty
opponent array is a TypeError (Except.error), while an absent card list is
skipped. -/
def processUsageBattle (tag : String) (st : UsageState) (b : Battle) :
    Except Unit UsageState :=
  match resolveTeam tag b with
  | none => Except.error ()
  | some pt =>
    match b.opponent.head? with
    | none => Except.error ()
    | some opp =>
      match pt.cards with
      | none => Except.ok st
      | some cards =>
        Except.ok (usageUpdate st cards
          (decide (opp.crowns.getD 0 < pt.crowns.getD 0)))

/-- The Ladder / Path-of-Legend filter applied before card/deck aggregation. -/
def validUsageBattle (b : Battle) : Bool :=
  b.type == "PvP" || b.type == "pathOfLegend"

def runUsage (tag : String) : UsageState → List Battle → Except Unit UsageState
  | st, [] => Except.ok st
  | st, b :: bs =>
    match processUsageBattle tag st b with
    | Except.error e => Except.error e
    | Except.ok st2 => runUsage tag st2 bs

def aggregateUsage (tag : String) (battles : List Battle) : Except Unit UsageState :=
  runUsage tag ⟨[], []⟩ (battles.filter validUsageBattle)

structure FacedCard where
  faced : Nat
  wins : Nat
  card : Card
deriving DecidableEq, Repr

structure FacedDeck where
  faced : Nat
  wins : Nat
  cards : List Card
deriving DecidableEq, Repr

structure FacedCount where
  faced : Nat
  wins : Nat
deriving DecidableEq, Repr

structure MatchupState where
  cardStats : List (String × FacedCard)
  deckStats : List (String × FacedDeck)
  archetypeStats : List (String × FacedCount)
  higherFaced : Nat
  higherWins : Nat
  lowerFaced : Nat
  lowerWins : Nat
  totalBattles : Nat
deriving DecidableEq, Repr

def bumpFacedCard (m : List (String × FacedCard)) (c : Card) (isWin : Bool) :
    List (String × FacedCard) :=
  updateAssoc m c.name ⟨0, 0, c⟩
    (fun s => ⟨s.faced + 1, s.wins + boolToNat isWin, s.card⟩)

/-- Win test of PlayerMatchupStats with JS comparison semantics: any
comparison against undefined is false. -/
def matchupIsWin (player opp : TeamPlayer) : Bool :=
  match player.crowns, opp.crowns with
  | some a, some b2 => decide (b2 < a)
  | _, _ => false

/-- The three per-battle opponent aggregations: per opposing card, per
opposing DeckKey (full deck, plain sort with no de-duplication or cap), and
per archetype. -/
def bumpMatchupMaps (st : MatchupState) (ocards : List Card) (isWin : Bool) :
    MatchupState :=
  { st with
    cardStats := ocards.foldl (fun m c => bumpFacedCard m c isWin) st.cardStats,
    deckStats := updateAssoc st.deckStats
      (String.intercalate "," (List.insertionSort (· ≤ ·) (ocards.map Card.name)))
      ⟨0, 0, ocards⟩ (fun s => ⟨s.faced + 1, s.wins + boolToNat isWin, s.cards⟩),
    archetypeStats := updateAssoc st.archetypeStats (getArchetype ocards) ⟨0, 0⟩
      (fun s => ⟨s.faced + 1, s.wins + boolToNat isWin⟩) }

/-- The trophy-gap buckets: only when both starting-trophy values are present
and non-zero (JS truthiness), and only for a strict gap in either direction. -/
def bumpTrophyGap (st : MatchupState) (player opp : TeamPlayer) (isWin : Bool) :
    MatchupState :=
  if player.startingTrophies.getD 0 ≠ 0 ∧ opp.startingTrophies.getD 0 ≠ 0 then
    if player.startingTrophies.getD 0 < opp.startingTrophies.getD 0 then
      { st with higherFaced := st.higherFaced + 1,
                higherWins := st.higherWins + boolToNat isWin }
    else if opp.startingTrophies.getD 0 < player.startingTrophies.getD 0 then
      { st with lowerFaced := st.lowerFaced + 1,
                lowerWins := st.lowerWins + boolToNat isWin }
    else st
  else st

def matchupUpdate (st : MatchupState) (player opp : TeamPlayer)
    (ocards : List Card) : MatchupState :=
  bumpTrophyGap
    (bumpMatchupMaps { st with totalBattles := st.totalBattles + 1 } ocards
      (matchupIsWin player opp))
    player opp (matchupIsWin player opp)

/-- One iteration of the PlayerMatchupStats loop: non-PvP modes are skipped
inside the loop; a missing player or opponent entry is skipped by the
`!player || !opponent` guard; an opponent entry without a card list throws at
`opponent.cards.forEach`. -/
def processMatchupBattle (tag : String) (st : MatchupState) (b : Battle) :
    Except Unit MatchupState :=
  if b.type == "PvP" || b.type == "pathOfLegend" then
    match resolveTeam tag b, b.opponent.head? with
    | some player, some opp =>
      match opp.cards with
      | none => Except.error ()
      | some ocards => Except.ok (matchupUpdate st player opp ocards)
    | _, _ => Except.ok st
  else Except.ok st

def initMatchup : MatchupState := ⟨[], [], [], 0, 0, 0, 0, 0⟩

def runMatchup (tag : String) : MatchupState → List Battle → Except Unit MatchupState
  | st, [] => Except.ok st
  | st, b :: bs =>
    match processMatchupBattle tag st b with
    | Except.error e => Except.error e
    | Except.ok st2 => runMatchup tag st2 bs

def aggregateMatchup (tag : String) (battles : List Battle) :
    Except Unit MatchupState :=
  runMatchup tag initMatchup battles

structure TowerBucket where
  count : Nat
  card : Card
deriving DecidableEq, Repr

structure TowerState where
  towerCounts : List (String × TowerBucket)
  totalTowerBattles : Nat
deriving DecidableEq, Repr

/-- One iteration of the tower-troop loop of PlayerUsageStats; it runs over
the full battle list (no mode filter) and its guard checks the team entry and
the support-card list before any access. -/
def processTowerBattle (tag : String) (st : TowerState) (b : Battle) : TowerState :=
  match resolveTeam tag b with
  | none => st
  | some pt =>
    match pt.supportCards with
    | none => st
    | some sc =>
      if 0 < sc.length then
        ⟨sc.foldl (fun m c =>
            updateAssoc m c.name ⟨0, c⟩ (fun t => ⟨t.count + 1, t.card⟩))
          st.towerCounts,
         st.totalTowerBattles + 1⟩
      else st

def aggregateTower (tag : String) (battles : List Battle) : TowerState :=
  battles.foldl (processTowerBattle tag) ⟨[], 0⟩

/-- The strict improvement test of the deck selection loop:
`item.count > max || (item.count === max && item.wins > maxWins)`. -/
def LexLt (c1 w1 c2 w2 : Nat) : Prop := c1 < c2 ∨ (c1 = c2 ∧ w1 < w2)

instance (c1 w1 c2 w2 : Nat) : Decidable (LexLt c1 w1 c2 w2) :=
  inferInstanceAs (Decidable (_ ∨ _))

def selectDeckStep (acc : Option DeckBucket × Nat × Nat) (item : DeckBucket) :
    Option DeckBucket × Nat × Nat :=
  if LexLt acc.2.1 acc.2.2 item.count item.wins then (some item, item.count, item.wins)
  else acc

/-- Most-used-deck selection, starting from `maxDeckCount = 0, wins = 0`. -/
def selectDeck (ds : List DeckBucket) : Option DeckBucket :=
  (ds.foldl selectDeckStep (none, 0, 0)).1

/-- Variant selection starts from `-1, -1`, so the first variant is always
taken; afterwards the same strict lexicographic test is used. -/
def selectVariantStep (acc : Option VariantBucket × Nat × Nat)
    (p : String × VariantBucket) : Option VariantBucket × Nat × Nat :=
  match acc.1 with
  | none => (some p.2, p.2.count, p.2.wins)
  | some _ =>
    if LexLt acc.2.1 acc.2.2 p.2.count p.2.wins then (some p.2, p.2.count, p.2.wins)
    else acc

def selectVariant (vs : List (String × VariantBucket)) : Option VariantBucket :=
  (vs.foldl selectVariantStep (none, 0, 0)).1

/-- The reported most used deck: dominant DeckKey bucket, then dominant
variant inside it. -/
def mostUsedDeckOf (st : UsageState) : Option (List Card) :=
  (selectDeck (st.deckCounts.map Prod.snd)).bind
    (fun d => (selectVariant d.variants).map (fun v => v.cards))

def rateQ (wins count : Nat) : ℚ := (wins : ℚ) / (count : ℚ)

/-- Best win-rate pass: only cards with `count >= 5`, starting from rate -1. -/
def bestCardStep (acc : Option CardBucket × ℚ) (item : CardBucket) :
    Option CardBucket × ℚ :=
  if 5 ≤ item.count then
    if acc.2 < rateQ item.wins item.count then (some item, rateQ item.wins item.count)
    else acc
  else acc

def bestCardFold (l : List CardBucket) : Option CardBucket × ℚ :=
  l.foldl bestCardStep (none, -1)

/-- Most-used pass: `item.count > maxCount`, starting from 0. -/
def mostUsedStep (acc : Option CardBucket × Nat) (item : CardBucket) :
    Option CardBucket × Nat :=
  if acc.2 < item.count then (some item, item.count) else acc

def mostUsedFold (l : List CardBucket) : Option CardBucket × Nat :=
  l.foldl mostUsedStep (none, 0)

/-- Best card with the fallback: when no card reaches count 5, use the most
used card and report its own win rate. -/
def findBestCard (l : List CardBucket) : Option CardBucket × ℚ :=
  match bestCardFold l with
  | (some c, q) => (some c, q)
  | (none, _) =>
    match (mostUsedFold l).1 with
    | some c => (some c, rateQ c.wins c.count)
    | none => (none, -1)

def facedRate (s : FacedCard) : ℚ := (s.wins : ℚ) / (s.faced : ℚ)

def facedRateLe (a b : FacedCard) : Prop := facedRate a ≤ facedRate b

instance : DecidableRel facedRateLe :=
  fun a b => inferInstanceAs (Decidable (facedRate a ≤ facedRate b))

/-- Model of `strugglingCards`: faced at least 3 times, win rate below one
half, sorted ascending by win rate, capped at 6. -/
def strugglingCards (l : List FacedCard) : List FacedCard :=
  (List.insertionSort facedRateLe
    (l.filter (fun s => decide (3 ≤ s.faced) && decide (facedRate s < 1 / 2)))).take 6

/-- A battle whose resolved self side reports a non-empty support-card list. -/
def hasTowerData (tag : String) (b : Battle) : Bool :=
  match resolveTeam tag b with
  | none => false
  | some pt =>
    match pt.supportCards with
    | none => false
    | some sc => decide (0 < sc.length)

theorem processTower_totals (tag : String) (st : TowerState) (b : Battle) :
    (processTowerBattle tag st b).totalTowerBattles
      = st.totalTowerBattles + (if hasTowerData tag b then 1 else 0) := by
  unfold processTowerBattle hasTowerData
  cases hr : resolveTeam tag b with
  | none => simp
  | some pt =>
    cases hsc : pt.supportCards with
    | none => simp [hsc]
    | some sc =>
      simp only [hsc]
      by_cases hl : 0 < sc.length
      · simp [hl]
      · simp [hl]

theorem towerFold_total (tag : String) :
    ∀ (bs : List Battle) (st : TowerState),
      (bs.foldl (processTowerBattle tag) st).totalTowerBattles
        = st.totalTowerBattles + bs.countP (hasTowerData tag) := by
  intro bs
  induction bs with
  | nil => intro st; simp
  | cons b bs ih =>
    intro st
    rw [List.foldl_cons, ih, List.countP_cons, processTower_totals]
    by_cases h : hasTowerData tag b
    · simp [h]
      omega
    · simp [h]

theorem processTower_type_blind (tag : String) (st : TowerState) (b : Battle)
    (t : String) :
    processTowerBattle tag st { b with type := t } = processTowerBattle tag st b := by
  cases b
  rfl

/-- C10: the tower-troop aggregation runs over the entire battle list with no
mode filter (re-labelling the mode tag of every battle changes nothing), and
totalTowerBattles counts exactly the battles whose resolved self side has a
non-empty support-card list. -/
theorem spec_c10_tower_over_unfiltered (tag : String) (battles : List Battle)
    (f : Battle → String) :
    (aggregateTower tag battles).totalTowerBattles
        = battles.countP (hasTowerData tag)
      ∧ aggregateTower tag (battles.map (fun b => { b with type := f b }))
        = aggregateTower tag battles := by
  constructor
  · unfold aggregateTower
    rw [towerFold_total]
    simp
  · unfold aggregateTower
    suffices h : ∀ (bs : List Battle) (st : TowerState),
        (bs.map (fun b => { b with type := f b })).foldl (processTowerBattle tag) st
          = bs.foldl (processTowerBattle tag) st by
      exact h battles ⟨[], 0⟩
    intro bs
    induction bs with
    | nil => intro st; rfl
    | cons b bs ih =>
      intro st
      rw [List.map_cons, List.foldl_cons, List.foldl_cons,
        processTower_type_blind, ih]

def cA : Card := ⟨"Archers", 1, ⟨"u", none, none⟩, none⟩

def cB : Card := ⟨"Bats", 2, ⟨"u", none, none⟩, none⟩

def wellFormedBattle : Battle :=
  ⟨"PvP", [⟨"#P", some [cA], none, some 2, none⟩],
   [⟨"#O", some [cA], none, some 0, none⟩], some "Ladder"⟩

deriving instance DecidableEq for Except

/-- A malformed battle: the opponent side array is empty. -/
def missingOpponentBattle : Battle :=
  ⟨"PvP", [⟨"#P", some [cA], none, some 3, none⟩], [], some "Ladder"⟩

/-- A malformed battle: the resolved self side has no card list. -/
def missingCardsBattle : Battle :=
  ⟨"PvP", [⟨"#P", none, none, some 1, none⟩],
   [⟨"#O", some [cA], none, some 2, none⟩], some "Ladder"⟩

/-- C4: in PlayerUsageStats, `battle.opponent[0].crowns` is read before any
guard, so a battle with an empty opponent array throws and aborts the whole
aggregation (the well-formed battle processed before it is lost too); a
missing self-side card list is skipped as documented, and PlayerMatchupStats
guards the same case correctly and skips it. -/
theorem spec_c4_missing_opponent_throws :
    aggregateUsage "#P" [wellFormedBattle, missingOpponentBattle] = Except.error ()
      ∧ aggregateUsage "#P" [missingCardsBattle] = Except.ok ⟨[], []⟩
      ∧ aggregateMatchup "#P" [missingOpponentBattle] = Except.ok initMatchup := by
  refine ⟨by decide, by decide, by decide⟩

/-- Modelled from the spec: the MatchupSignificanceEngine is not among the
source files (ArchetypeMatchupHeatmap only consumes precomputed `z_score` and
`significant` fields), so the z-statistic is taken from the specification:
`z = (p - 0.5) / sqrt(0.25 / n)` for a win rate p over n samples. -/
noncomputable def zStat (p : ℚ) (n : ℕ) : ℝ :=
  ((p : ℝ) - 0.5) / Real.sqrt (0.25 / (n : ℝ))

/-- Modelled from the spec: the fixed two-tailed 95 percent threshold. -/
def Z_THRESHOLD : ℝ := 1.96

/-- Modelled from the spec: a cell is significant when the absolute z-score
exceeds the threshold. -/
def isSignificantAt (p : ℚ) (n : ℕ) : Prop := Z_THRESHOLD < |zStat p n|

/-- C9: a win rate of exactly one half gives z = 0 and is non-significant for
every sample size. -/
theorem spec_c9_half_rate_not_significant (n : ℕ) :
    zStat (1 / 2) n = 0 ∧ ¬ isSignificantAt (1 / 2) n := by
  have hz : zStat (1 / 2) n = 0 := by
    unfold zStat
    have h : ((1 / 2 : ℚ) : ℝ) - 0.5 = 0 := by norm_num
    rw [h, zero_div]
  refine ⟨hz, ?_⟩
  unfold isSignificantAt
  rw [hz]
  simp [Z_THRESHOLD]
  norm_num

/-- Witness for C9 at a concrete sample size. -/
theorem spec_c9_half_rate_not_significant_witness :
    zStat (1 / 2) 7 = 0 ∧ ¬ isSignificantAt (1 / 2) 7 :=
  spec_c9_half_rate_not_significant 7

def wCard (n : String) : Card := ⟨n, 0, ⟨"u", none, none⟩, none⟩

def nineCards : List Card :=
  [wCard "I", wCard "H", wCard "G", wCard "F", wCard "E", wCard "D", wCard "C",
   wCard "B", wCard "A"]

/-- Witness for C1 on a nine-card self side. -/
theorem spec_c1_deck_truncation_witness :
    8 < ((nineCards.map Card.name).dedup).length
      ∧ ((canonicalDeckCards nineCards).map Card.name
          = (List.insertionSort (· ≤ ·) (dedupNames nineCards)).take 8
        ∧ ((canonicalDeckCards nineCards).map Card.name).length = 8
        ∧ List.Sorted (· ≤ ·) ((canonicalDeckCards nineCards).map Card.name)
        ∧ deckKeyOf nineCards
          = String.intercalate ","
              ((List.insertionSort (· ≤ ·) (dedupNames nineCards)).take 8)) :=
  ⟨by decide, spec_c1_deck_truncation nineCards (by decide)⟩

def permDeckA : List Card := [wCard "B", wCard "A"]

def permDeckB : List Card := [wCard "A", wCard "B"]

/-- Witness for C2 on a concrete permuted pair. -/
theorem spec_c2_deckkey_perm_invariant_witness :
    permDeckA.Perm permDeckB ∧ deckKeyOf permDeckA = deckKeyOf permDeckB :=
  ⟨by decide, spec_c2_deckkey_perm_invariant permDeckA permDeckB (by decide)⟩

def siegeHogCards : List Card := [wCard "X-Bow", wCard "Hog Rider"]

/-- Witness for C3: a deck triggering both Siege and Cycle classifies as
Siege (earlier in the table), and a deck with no triggers is Unknown. -/
theorem spec_c3_archetype_first_match_witness :
    getArchetype siegeHogCards = "Siege"
      ∧ getArchetype [wCard "Knight"] = "Unknown" :=
  ⟨(spec_c3_archetype_first_match siegeHogCards).1
      [("Beatdown", ["Golem", "Lava Hound", "Giant", "Electro Giant", "Goblin Giant",
                     "Royal Giant", "Elixir Golem"])]
      ("Siege", ["X-Bow", "Mortar"])
      [("Control", ["Miner", "Graveyard", "Goblin Barrel", "Wall Breakers",
                    "Skeleton Barrel"]),
       ("Cycle", ["Hog Rider", "Royal Hogs", "Ram Rider", "Battle Ram"]),
       ("Bridge Spam", ["P.E.K.K.A", "Mega Knight", "Elite Barbarians",
                        "Royal Recruits"]),
       ("Air", ["Balloon"]),
       ("Three Musketeers", ["Three Musketeers"])]
      (by decide) (by decide) (by decide),
   (spec_c3_archetype_first_match [wCard "Knight"]).2 (by decide)⟩

theorem lexLt_trans {a b c d e f : Nat} (h1 : LexLt a b c d) (h2 : LexLt c d e f) :
    LexLt a b e f := by
  unfold LexLt at *
  omega

theorem deckSelInv (l : List DeckBucket) :
    (l.foldl selectDeckStep (none, 0, 0) = ((none : Option DeckBucket), 0, 0)
        ∧ ∀ x ∈ l, ¬ LexLt 0 0 x.count x.wins)
      ∨ (∃ b l1 l2, l.foldl selectDeckStep (none, 0, 0) = (some b, b.count, b.wins)
          ∧ l = l1 ++ b :: l2
          ∧ (∀ x ∈ l1, LexLt x.count x.wins b.count b.wins)
          ∧ (∀ x ∈ l2, ¬ LexLt b.count b.wins x.count x.wins)) := by
  induction l using List.reverseRecOn with
  | nil => exact Or.inl ⟨rfl, by simp⟩
  | append_singleton l x ih =>
    rw [List.foldl_append, List.foldl_cons, List.foldl_nil]
    rcases ih with ⟨heq, hall⟩ | ⟨b, l1, l2, heq, hsplit, h1, h2⟩
    · rw [heq]
      by_cases hx : LexLt 0 0 x.count x.wins
      · right
        refine ⟨x, l, [], ?_, by simp, ?_, by simp⟩
        · unfold selectDeckStep
          simp [hx]
        · intro y hy
          have hy0 := hall y hy
          unfold LexLt at *
          omega
      · left
        refine ⟨?_, ?_⟩
        · unfold selectDeckStep
          simp [hx]
        · intro y hy
          rcases List.mem_append.mp hy with hy | hy
          · exact hall y hy
          · simp only [List.mem_singleton] at hy
            subst hy
            exact hx
    · rw [heq]
      by_cases hx : LexLt b.count b.wins x.count x.wins
      · right
        refine ⟨x, l1 ++ b :: l2, [], ?_, by rw [hsplit], ?_, by simp⟩
        · unfold selectDeckStep
          simp [hx]
        · intro y hy
          rcases List.mem_append.mp hy with hy | hy
          · exact lexLt_trans (h1 y hy) hx
          · rcases List.mem_cons.mp hy with rfl | hy
            · exact hx
            · have hyb := h2 y hy
              unfold LexLt at *
              omega
      · right
        refine ⟨b, l1, l2 ++ [x], ?_, by rw [hsplit]; simp, h1, ?_⟩
        · unfold selectDeckStep
          simp [hx]
        · intro y hy
          rcases List.mem_append.mp hy with hy | hy
          · exact h2 y hy
          · simp only [List.mem_singleton] at hy
            subst hy
            exact hx

theorem varSelInv (l : List (String × VariantBucket)) :
    (l.foldl selectVariantStep (none, 0, 0) = ((none : Option VariantBucket), 0, 0)
        ∧ l = [])
      ∨ (∃ v m1 m2, l.foldl selectVariantStep (none, 0, 0)
            = (some (Prod.snd v), (Prod.snd v).count, (Prod.snd v).wins)
          ∧ l = m1 ++ v :: m2
          ∧ (∀ x ∈ m1, LexLt (Prod.snd x).count (Prod.snd x).wins
              (Prod.snd v).count (Prod.snd v).wins)
          ∧ (∀ x ∈ m2, ¬ LexLt (Prod.snd v).count (Prod.snd v).wins
              (Prod.snd x).count (Prod.snd x).wins)) := by
  induction l using List.reverseRecOn with
  | nil => exact Or.inl ⟨rfl, rfl⟩
  | append_singleton l x ih =>
    rw [List.foldl_append, List.foldl_cons, List.foldl_nil]
    rcases ih with ⟨heq, hnil⟩ | ⟨v, m1, m2, heq, hsplit, h1, h2⟩
    · subst hnil
      right
      refine ⟨x, [], [], ?_, by simp, by simp, by simp⟩
      simp only [List.foldl_nil]
      rfl
    · rw [heq]
      by_cases hx : LexLt (Prod.snd v).count (Prod.snd v).wins
          (Prod.snd x).count (Prod.snd x).wins
      · right
        refine ⟨x, m1 ++ v :: m2, [], ?_, by rw [hsplit], ?_, by simp⟩
        · unfold selectVariantStep
          simp [hx]
        · intro y hy
          rcases List.mem_append.mp hy with hy | hy
          · exact lexLt_trans (h1 y hy) hx
          · rcases List.mem_cons.mp hy with rfl | hy
            · exact hx
            · have hyb := h2 y hy
              unfold LexLt at *
              omega
      · right
        refine ⟨v, m1, m2 ++ [x], ?_, by rw [hsplit]; simp, h1, ?_⟩
        · unfold selectVariantStep
          simp [hx]
        · intro y hy
          rcases List.mem_append.mp hy with hy | hy
          · exact h2 y hy
          · simp only [List.mem_singleton] at hy
            subst hy
            exact hx

/-- C5: the reported most used deck is the DeckKey bucket maximizing
(count, wins) lexicographically under strict greater-than (equal count and
wins keeps the earliest bucket), and inside the winning bucket the variant is
chosen by the same rule. -/
theorem spec_c5_most_used_deck_selection (ds : List DeckBucket)
    (hne : ds ≠ []) (hcnt : ∀ x ∈ ds, 1 ≤ x.count) :
    ∃ b l1 l2, selectDeck ds = some b ∧ ds = l1 ++ b :: l2
      ∧ (∀ x ∈ l1, LexLt x.count x.wins b.count b.wins)
      ∧ (∀ x ∈ l2, ¬ LexLt b.count b.wins x.count x.wins)
      ∧ (b.variants = [] → selectVariant b.variants = none)
      ∧ (b.variants ≠ [] →
          ∃ v m1 m2, selectVariant b.variants = some (Prod.snd v)
            ∧ b.variants = m1 ++ v :: m2
            ∧ (∀ x ∈ m1, LexLt (Prod.snd x).count (Prod.snd x).wins
                (Prod.snd v).count (Prod.snd v).wins)
            ∧ (∀ x ∈ m2, ¬ LexLt (Prod.snd v).count (Prod.snd v).wins
                (Prod.snd x).count (Prod.snd x).wins)) := by
  rcases deckSelInv ds with ⟨heq, hall⟩ | ⟨b, l1, l2, heq, hsplit, h1, h2⟩
  · exfalso
    obtain ⟨c, hc⟩ : ∃ c, c ∈ ds := by
      cases ds with
      | nil => exact absurd rfl hne
      | cons a l => exact ⟨a, List.mem_cons_self a l⟩
    have hnc := hall c hc
    have hc1 := hcnt c hc
    exact hnc (Or.inl (by omega))
  · refine ⟨b, l1, l2, ?_, hsplit, h1, h2, ?_, ?_⟩
    · unfold selectDeck
      rw [heq]
    · intro hv
      rw [hv]
      rfl
    · intro hv
      rcases varSelInv b.variants with ⟨_, hnil⟩ | ⟨v, m1, m2, heqv, hsp, hv1, hv2⟩
      · exact absurd hnil hv
      · refine ⟨v, m1, m2, ?_, hsp, hv1, hv2⟩
        unfold selectVariant
        rw [heqv]

def demoVariantA : VariantBucket := ⟨1, 0, []⟩

def demoVariantB : VariantBucket := ⟨2, 1, []⟩

def demoDeckA : DeckBucket := ⟨3, 1, [("BASE", demoVariantA), ("k", demoVariantB)]⟩

def demoDeckB : DeckBucket := ⟨3, 2, [("BASE", demoVariantB)]⟩

/-- Witness for C5 on two concrete deck buckets tied on count. -/
theorem spec_c5_most_used_deck_selection_witness :
    ∃ b l1 l2, selectDeck [demoDeckA, demoDeckB] = some b
      ∧ [demoDeckA, demoDeckB] = l1 ++ b :: l2
      ∧ (∀ x ∈ l1, LexLt x.count x.wins b.count b.wins)
      ∧ (∀ x ∈ l2, ¬ LexLt b.count b.wins x.count x.wins)
      ∧ (b.variants = [] → selectVariant b.variants = none)
      ∧ (b.variants ≠ [] →
          ∃ v m1 m2, selectVariant b.variants = some (Prod.snd v)
            ∧ b.variants = m1 ++ v :: m2
            ∧ (∀ x ∈ m1, LexLt (Prod.snd x).count (Prod.snd x).wins
                (Prod.snd v).count (Prod.snd v).wins)
            ∧ (∀ x ∈ m2, ¬ LexLt (Prod.snd v).count (Prod.snd v).wins
                (Prod.snd x).count (Prod.snd x).wins)) :=
  spec_c5_most_used_deck_selection [demoDeckA, demoDeckB] (by decide) (by decide)

theorem rateQ_nonneg (w c : Nat) : 0 ≤ rateQ w c :=
  div_nonneg (Nat.cast_nonneg w) (Nat.cast_nonneg c)

theorem bestInv (l : List CardBucket) :
    (bestCardFold l = ((none : Option CardBucket), -1) ∧ ∀ x ∈ l, x.count < 5)
      ∨ (∃ r, r ∈ l ∧ bestCardFold l = (some r, rateQ r.wins r.count) ∧ 5 ≤ r.count
          ∧ ∀ x ∈ l, 5 ≤ x.count → rateQ x.wins x.count ≤ rateQ r.wins r.count) := by
  unfold bestCardFold
  induction l using List.reverseRecOn with
  | nil => exact Or.inl ⟨rfl, by simp⟩
  | append_singleton l x ih =>
    rw [List.foldl_append, List.foldl_cons, List.foldl_nil]
    rcases ih with ⟨heq, hall⟩ | ⟨r, hr, heq, hr5, hmax⟩
    · rw [heq]
      by_cases hx : 5 ≤ x.count
      · right
        refine ⟨x, by simp, ?_, hx, ?_⟩
        · unfold bestCardStep
          have hpos : (-1 : ℚ) < rateQ x.wins x.count :=
            lt_of_lt_of_le (by norm_num) (rateQ_nonneg _ _)
          simp [hx, hpos]
        · intro y hy hy5
          rcases List.mem_append.mp hy with hy | hy
          · exact absurd (hall y hy) (by omega)
          · simp only [List.mem_singleton] at hy
            subst hy
            exact le_refl _
      · left
        refine ⟨?_, ?_⟩
        · unfold bestCardStep
          simp [hx]
        · intro y hy
          rcases List.mem_append.mp hy with hy | hy
          · exact hall y hy
          · simp only [List.mem_singleton] at hy
            subst hy
            omega
    · rw [heq]
      by_cases hx : 5 ≤ x.count
      · by_cases himp : rateQ r.wins r.count < rateQ x.wins x.count
        · right
          refine ⟨x, by simp, ?_, hx, ?_⟩
          · unfold bestCardStep
            simp [hx, himp]
          · intro y hy hy5
            rcases List.mem_append.mp hy with hy | hy
            · exact le_trans (hmax y hy hy5) (le_of_lt himp)
            · simp only [List.mem_singleton] at hy
              subst hy
              exact le_refl _
        · right
          refine ⟨r, by simp [hr], ?_, hr5, ?_⟩
          · unfold bestCardStep
            simp [hx, himp]
          · intro y hy hy5
            rcases List.mem_append.mp hy with hy | hy
            · exact hmax y hy hy5
            · simp only [List.mem_singleton] at hy
              subst hy
              exact le_of_not_lt himp
      · right
        refine ⟨r, by simp [hr], ?_, hr5, ?_⟩
        · unfold bestCardStep
          simp [hx]
        · intro y hy hy5
          rcases List.mem_append.mp hy with hy | hy
          · exact hmax y hy hy5
          · simp only [List.mem_singleton] at hy
            subst hy
            omega

theorem mostUsedInv (l : List CardBucket) :
    (mostUsedFold l = ((none : Option CardBucket), 0) ∧ ∀ x ∈ l, x.count = 0)
      ∨ (∃ r, r ∈ l ∧ mostUsedFold l = (some r, r.count)
          ∧ ∀ x ∈ l, x.count ≤ r.count) := by
  unfold mostUsedFold
  induction l using List.reverseRecOn with
  | nil => exact Or.inl ⟨rfl, by simp⟩
  | append_singleton l x ih =>
    rw [List.foldl_append, List.foldl_cons, List.foldl_nil]
    rcases ih with ⟨heq, hall⟩ | ⟨r, hr, heq, hmax⟩
    · rw [heq]
      by_cases hx : 0 < x.count
      · right
        refine ⟨x, by simp, ?_, ?_⟩
        · unfold mostUsedStep
          simp [hx]
        · intro y hy
          rcases List.mem_append.mp hy with hy | hy
          · rw [hall y hy]
            omega
          · simp only [List.mem_singleton] at hy
            subst hy
            exact le_refl _
      · left
        refine ⟨?_, ?_⟩
        · unfold mostUsedStep
          simp [hx]
        · intro y hy
          rcases List.mem_append.mp hy with hy | hy
          · exact hall y hy
          · simp only [List.mem_singleton] at hy
            subst hy
            omega
    · rw [heq]
      by_cases hx : r.count < x.count
      · right
        refine ⟨x, by simp, ?_, ?_⟩
        · unfold mostUsedStep
          simp [hx]
        · intro y hy
          rcases List.mem_append.mp hy with hy | hy
          · exact le_trans (hmax y hy) (le_of_lt hx)
          · simp only [List.mem_singleton] at hy
            subst hy
            exact le_refl _
      · right
        refine ⟨r, by simp [hr], ?_, ?_⟩
        · unfold mostUsedStep
          simp [hx]
        · intro y hy
          rcases List.mem_append.mp hy with hy | hy
          · exact hmax y hy
          · simp only [List.mem_singleton] at hy
            subst hy
            omega

/-- C6: the best win-rate card maximizes wins/count among cards with count at
least 5; with no such card it falls back to the most used card reported with
its own win rate, so a nonempty card table always yields a result. -/
theorem spec_c6_best_card (l : List CardBucket) (hne : l ≠ [])
    (hcnt : ∀ x ∈ l, 1 ≤ x.count) :
    ∃ r, r ∈ l
      ∧ findBestCard l = (some r, rateQ r.wins r.count)
      ∧ ((∃ q, q ∈ l ∧ 5 ≤ q.count) →
          (5 ≤ r.count ∧ ∀ x ∈ l, 5 ≤ x.count →
            rateQ x.wins x.count ≤ rateQ r.wins r.count))
      ∧ ((∀ x ∈ l, x.count < 5) → ∀ x ∈ l, x.count ≤ r.count) := by
  rcases bestInv l with ⟨heq, hall⟩ | ⟨r, hr, heq, hr5, hmax⟩
  · rcases mostUsedInv l with ⟨_, hzero⟩ | ⟨r, hr, heqm, hmaxm⟩
    · exfalso
      obtain ⟨c, hc⟩ : ∃ c, c ∈ l := by
        cases l with
        | nil => exact absurd rfl hne
        | cons a l => exact ⟨a, List.mem_cons_self a l⟩
      have := hcnt c hc
      have := hzero c hc
      omega
    · refine ⟨r, hr, ?_, ?_, fun _ => hmaxm⟩
      · unfold findBestCard
        rw [heq, heqm]
      · rintro ⟨q, hq, hq5⟩
        exact absurd (hall q hq) (by omega)
  · refine ⟨r, hr, ?_, fun _ => ⟨hr5, hmax⟩, ?_⟩
    · unfold findBestCard
      rw [heq]
    · intro hall2
      exact absurd (hall2 r hr) (by omega)

def demoCardBuckets : List CardBucket :=
  [⟨5, 3, wCard "A"⟩, ⟨6, 2, wCard "B"⟩, ⟨4, 4, wCard "C"⟩]

/-- Witness for C6: a table where a count-4 card with a perfect record is
excluded by the threshold. -/
theorem spec_c6_best_card_witness :
    ∃ r, r ∈ demoCardBuckets
      ∧ findBestCard demoCardBuckets = (some r, rateQ r.wins r.count)
      ∧ ((∃ q, q ∈ demoCardBuckets ∧ 5 ≤ q.count) →
          (5 ≤ r.count ∧ ∀ x ∈ demoCardBuckets, 5 ≤ x.count →
            rateQ x.wins x.count ≤ rateQ r.wins r.count))
      ∧ ((∀ x ∈ demoCardBuckets, x.count < 5) →
          ∀ x ∈ demoCardBuckets, x.count ≤ r.count) :=
  spec_c6_best_card demoCardBuckets (by decide) (by decide)

instance : IsTotal FacedCard facedRateLe :=
  ⟨fun a b => le_total (facedRate a) (facedRate b)⟩

instance : IsTrans FacedCard facedRateLe :=
  ⟨fun _ _ _ h1 h2 => le_trans h1 h2⟩

/-- C7: the hardest-counters list is exactly the opposing cards with faced at
least 3 and win rate below one half, sorted ascending by win rate and capped
at 6 (the cap keeps a lowest-rate subset); a card faced at most twice never
appears. -/
theorem spec_c7_hardest_counters (l : List FacedCard) :
    ∃ rest,
      (l.filter (fun s => decide (3 ≤ s.faced) && decide (facedRate s < 1 / 2))).Perm
          (strugglingCards l ++ rest)
      ∧ List.Sorted facedRateLe (strugglingCards l)
      ∧ (∀ x ∈ strugglingCards l, x ∈ l ∧ 3 ≤ x.faced ∧ facedRate x < 1 / 2)
      ∧ (∀ x ∈ strugglingCards l, ∀ y ∈ rest, facedRate x ≤ facedRate y)
      ∧ (strugglingCards l).length
          = min 6 (l.filter
              (fun s => decide (3 ≤ s.faced) && decide (facedRate s < 1 / 2))).length
      ∧ ((l.filter (fun s => decide (3 ≤ s.faced) && decide (facedRate s < 1 / 2))).length ≤ 6 →
          ∀ x ∈ l, 3 ≤ x.faced → facedRate x < 1 / 2 → x ∈ strugglingCards l)
      ∧ (∀ x ∈ l, x.faced ≤ 2 → x ∉ strugglingCards l) := by
  set q := l.filter (fun s => decide (3 ≤ s.faced) && decide (facedRate s < 1 / 2)) with hq
  set s := List.insertionSort facedRateLe q with hs
  have hsS : strugglingCards l = s.take 6 := by
    unfold strugglingCards
    rw [← hq, ← hs]
  have hsq : s.Perm q := List.perm_insertionSort facedRateLe q
  have hsplit : s.take 6 ++ s.drop 6 = s := List.take_append_drop 6 s
  have hsor : List.Sorted facedRateLe s := List.sorted_insertionSort facedRateLe q
  have hpairs : ∀ x ∈ s.take 6, ∀ y ∈ s.drop 6, facedRateLe x y := by
    have := hsor
    rw [← hsplit] at this
    exact (List.pairwise_append.mp this).2.2
  have hmemq : ∀ x, x ∈ q ↔ (x ∈ l ∧ 3 ≤ x.faced ∧ facedRate x < 1 / 2) := by
    intro x
    rw [hq, List.mem_filter]
    simp
  refine ⟨s.drop 6, ?_, ?_, ?_, ?_, ?_, ?_, ?_⟩
  · rw [hsS, hsplit]
    exact hsq.symm
  · rw [hsS]
    exact List.Pairwise.sublist (List.take_sublist 6 s) hsor
  · intro x hx
    rw [hsS] at hx
    have hxs : x ∈ s := List.mem_of_mem_take hx
    exact (hmemq x).mp (hsq.subset hxs)
  · intro x hx y hy
    rw [hsS] at hx
    exact hpairs x hx y hy
  · rw [hsS, List.length_take, hsq.length_eq]
  · intro hlen x hxl hx3 hxr
    have hxq : x ∈ q := (hmemq x).mpr ⟨hxl, hx3, hxr⟩
    have hslen : s.length ≤ 6 := by
      rw [hsq.length_eq]
      exact hlen
    rw [hsS, List.take_of_length_le hslen]
    exact hsq.mem_iff.mpr hxq
  · intro x _ hx2 hmem
    have := ((hmemq x).mp (hsq.subset (List.mem_of_mem_take (hsS ▸ hmem)))).2.1
    omega

def counterOK (count wins : Nat) : Prop := 1 ≤ count ∧ wins ≤ count

/-- A populated bucket: at least one contribution, wins bounded by the
denominator, and a win rate inside the unit interval. -/
def bucketOK (count wins : Nat) : Prop :=
  1 ≤ count ∧ wins ≤ count ∧ 0 ≤ rateQ wins count ∧ rateQ wins count ≤ 1

theorem counterOK_bucketOK {c w : Nat} (h : counterOK c w) : bucketOK c w := by
  obtain ⟨h1, h2⟩ := h
  refine ⟨h1, h2, rateQ_nonneg w c, ?_⟩
  unfold rateQ
  rw [div_le_one (by exact_mod_cast Nat.lt_of_lt_of_le Nat.zero_lt_one h1)]
  exact_mod_cast h2

/-- A trophy-gap bucket: wins bounded by faced, and when the bucket is
populated the rate is in the unit interval (a zero-sample bucket is reported
as a literal 0 by the consumer). -/
def gapOK (faced wins : Nat) : Prop :=
  wins ≤ faced ∧ (1 ≤ faced → (0 ≤ rateQ wins faced ∧ rateQ wins faced ≤ 1))

theorem le_gapOK {f w : Nat} (h : w ≤ f) : gapOK f w :=
  ⟨h, fun h1 => ⟨rateQ_nonneg _ _, (counterOK_bucketOK ⟨h1, h⟩).2.2.2⟩⟩

theorem boolToNat_le_one (b : Bool) : boolToNat b ≤ 1 := by
  cases b <;> simp [boolToNat]

theorem counterOK_init (isWin : Bool) : counterOK (0 + 1) (0 + boolToNat isWin) := by
  have := boolToNat_le_one isWin
  constructor <;> omega

theorem counterOK_step {c w : Nat} (isWin : Bool) (h : counterOK c w) :
    counterOK (c + 1) (w + boolToNat isWin) := by
  have := boolToNat_le_one isWin
  obtain ⟨h1, h2⟩ := h
  constructor <;> omega

theorem updateAssoc_forall {β : Type} (P : β → Prop) (m : List (String × β))
    (k : String) (init : β) (upd : β → β)
    (h : ∀ p ∈ m, P (Prod.snd p)) (hinit : P (upd init))
    (hupd : ∀ b, P b → P (upd b)) :
    ∀ p ∈ updateAssoc m k init upd, P (Prod.snd p) := by
  unfold updateAssoc
  split
  · intro p hp
    obtain ⟨q, hq, hqp⟩ := List.mem_map.mp hp
    by_cases hq1 : q.1 = k
    · simp only [hq1, if_pos rfl] at hqp
      rw [← hqp]
      exact hupd q.2 (h q hq)
    · simp only [if_neg hq1] at hqp
      rw [← hqp]
      exact h q hq
  · intro p hp
    rcases List.mem_append.mp hp with hp | hp
    · exact h p hp
    · simp only [List.mem_singleton] at hp
      rw [hp]
      exact hinit

def UsageC (st : UsageState) : Prop :=
  (∀ p ∈ st.cardCounts, counterOK (Prod.snd p).count (Prod.snd p).wins)
    ∧ (∀ p ∈ st.deckCounts, counterOK (Prod.snd p).count (Prod.snd p).wins
        ∧ ∀ v ∈ (Prod.snd p).variants, counterOK (Prod.snd v).count (Prod.snd v).wins)

theorem bumpCard_ok (m : List (String × CardBucket)) (c : Card) (isWin : Bool)
    (h : ∀ p ∈ m, counterOK (Prod.snd p).count (Prod.snd p).wins) :
    ∀ p ∈ bumpCard m c isWin, counterOK (Prod.snd p).count (Prod.snd p).wins := by
  refine updateAssoc_forall (fun b => counterOK b.count b.wins) m c.name _ _ h ?_ ?_
  · exact counterOK_init isWin
  · intro b hb
    exact counterOK_step isWin hb

theorem bumpVariant_ok (vs : List (String × VariantBucket)) (vkey : String)
    (pcards : List Card) (isWin : Bool)
    (h : ∀ v ∈ vs, counterOK (Prod.snd v).count (Prod.snd v).wins) :
    ∀ v ∈ bumpVariant vs vkey pcards isWin,
      counterOK (Prod.snd v).count (Prod.snd v).wins := by
  refine updateAssoc_forall (fun b => counterOK b.count b.wins) vs vkey _ _ h ?_ ?_
  · exact counterOK_init isWin
  · intro b hb
    exact counterOK_step isWin hb

theorem bumpDeck_ok (ds : List (String × DeckBucket)) (dkey vkey : String)
    (pcards : List Card) (isWin : Bool)
    (h : ∀ p ∈ ds, counterOK (Prod.snd p).count (Prod.snd p).wins
        ∧ ∀ v ∈ (Prod.snd p).variants, counterOK (Prod.snd v).count (Prod.snd v).wins) :
    ∀ p ∈ bumpDeck ds dkey vkey pcards isWin,
      counterOK (Prod.snd p).count (Prod.snd p).wins
        ∧ ∀ v ∈ (Prod.snd p).variants,
            counterOK (Prod.snd v).count (Prod.snd v).wins := by
  refine updateAssoc_forall
    (fun b => counterOK b.count b.wins
      ∧ ∀ v ∈ b.variants, counterOK (Prod.snd v).count (Prod.snd v).wins)
    ds dkey _ _ h ?_ ?_
  · refine ⟨counterOK_init isWin, ?_⟩
    exact bumpVariant_ok [] vkey pcards isWin (by simp)
  · intro b hb
    obtain ⟨hcw, hv⟩ := hb
    exact ⟨counterOK_step isWin hcw, bumpVariant_ok b.variants vkey pcards isWin hv⟩

theorem usageUpdate_wf (st : UsageState) (cards : List Card) (isWin : Bool)
    (hst : UsageC st) : UsageC (usageUpdate st cards isWin) := by
  obtain ⟨hcc, hdc⟩ := hst
  have hfold : ∀ p ∈ cards.foldl (fun m c => bumpCard m c isWin) st.cardCounts,
      counterOK (Prod.snd p).count (Prod.snd p).wins := by
    refine foldl_preserve _
      (fun m => ∀ p ∈ m, counterOK (Prod.snd p).count (Prod.snd p).wins)
      ?_ cards st.cardCounts hcc
    intro m c hm
    exact bumpCard_ok m c isWin hm
  unfold usageUpdate
  split
  · exact ⟨hfold, hdc⟩
  · exact ⟨hfold, bumpDeck_ok st.deckCounts _ _ _ isWin hdc⟩

theorem runUsage_wf (tag : String) :
    ∀ (bs : List Battle) (st st2 : UsageState),
      runUsage tag st bs = Except.ok st2 → UsageC st → UsageC st2 := by
  intro bs
  induction bs with
  | nil =>
    intro st st2 h hst
    unfold runUsage at h
    injection h with h2
    rw [← h2]
    exact hst
  | cons b bs ih =>
    intro st st2 h hst
    unfold runUsage processUsageBattle at h
    revert h
    cases resolveTeam tag b with
    | none => intro h; simp at h
    | some pt =>
      try simp only []
      cases b.opponent.head? with
      | none => intro h; simp at h
      | some opp =>
        try simp only []
        cases pt.cards with
        | none =>
          intro h
          try simp only [] at h
          exact ih st st2 h hst
        | some cards =>
          intro h
          try simp only [] at h
          exact ih _ st2 h (usageUpdate_wf st cards _ hst)

def MatchupC (st : MatchupState) : Prop :=
  (∀ p ∈ st.cardStats, counterOK (Prod.snd p).faced (Prod.snd p).wins)
    ∧ (∀ p ∈ st.deckStats, counterOK (Prod.snd p).faced (Prod.snd p).wins)
    ∧ (∀ p ∈ st.archetypeStats, counterOK (Prod.snd p).faced (Prod.snd p).wins)
    ∧ st.higherWins ≤ st.higherFaced
    ∧ st.lowerWins ≤ st.lowerFaced

theorem bumpFacedCard_ok (m : List (String × FacedCard)) (c : Card) (isWin : Bool)
    (h : ∀ p ∈ m, counterOK (Prod.snd p).faced (Prod.snd p).wins) :
    ∀ p ∈ bumpFacedCard m c isWin,
      counterOK (Prod.snd p).faced (Prod.snd p).wins := by
  refine updateAssoc_forall (fun b => counterOK b.faced b.wins) m c.name _ _ h ?_ ?_
  · exact counterOK_init isWin
  · intro b hb
    exact counterOK_step isWin hb

theorem bumpMatchupMaps_wf (st : MatchupState) (ocards : List Card) (isWin : Bool)
    (hst : MatchupC st) : MatchupC (bumpMatchupMaps st ocards isWin) := by
  obtain ⟨hc, hd, ha, hh, hl⟩ := hst
  have h1 : ∀ p ∈ ocards.foldl (fun m c => bumpFacedCard m c isWin) st.cardStats,
      counterOK (Prod.snd p).faced (Prod.snd p).wins := by
    refine foldl_preserve _
      (fun m => ∀ p ∈ m, counterOK (Prod.snd p).faced (Prod.snd p).wins)
      ?_ ocards st.cardStats hc
    intro m c hm
    exact bumpFacedCard_ok m c isWin hm
  have h2 : ∀ p ∈ updateAssoc st.deckStats
      (String.intercalate "," (List.insertionSort (· ≤ ·) (ocards.map Card.name)))
      (⟨0, 0, ocards⟩ : FacedDeck)
      (fun s => ⟨s.faced + 1, s.wins + boolToNat isWin, s.cards⟩),
      counterOK (Prod.snd p).faced (Prod.snd p).wins := by
    refine updateAssoc_forall (fun b => counterOK b.faced b.wins)
      st.deckStats _ _ _ hd ?_ ?_
    · exact counterOK_init isWin
    · intro b hb
      exact counterOK_step isWin hb
  have h3 : ∀ p ∈ updateAssoc st.archetypeStats (getArchetype ocards)
      (⟨0, 0⟩ : FacedCount)
      (fun s => ⟨s.faced + 1, s.wins + boolToNat isWin⟩),
      counterOK (Prod.snd p).faced (Prod.snd p).wins := by
    refine updateAssoc_forall (fun b => counterOK b.faced b.wins)
      st.archetypeStats _ _ _ ha ?_ ?_
    · exact counterOK_init isWin
    · intro b hb
      exact counterOK_step isWin hb
  exact ⟨h1, h2, h3, hh, hl⟩

theorem bumpTrophyGap_wf (st : MatchupState) (player opp : TeamPlayer)
    (isWin : Bool) (hst : MatchupC st) :
    MatchupC (bumpTrophyGap st player opp isWin) := by
  obtain ⟨hc, hd, ha, hh, hl⟩ := hst
  have := boolToNat_le_one isWin
  unfold bumpTrophyGap
  split
  · split
    · refine ⟨hc, hd, ha, ?_, hl⟩
      show st.higherWins + boolToNat isWin ≤ st.higherFaced + 1
      omega
    · split
      · refine ⟨hc, hd, ha, hh, ?_⟩
        show st.lowerWins + boolToNat isWin ≤ st.lowerFaced + 1
        omega
      · exact ⟨hc, hd, ha, hh, hl⟩
  · exact ⟨hc, hd, ha, hh, hl⟩

theorem matchupUpdate_wf (st : MatchupState) (player opp : TeamPlayer)
    (ocards : List Card) (hst : MatchupC st) :
    MatchupC (matchupUpdate st player opp ocards) := by
  unfold matchupUpdate
  refine bumpTrophyGap_wf _ player opp _ (bumpMatchupMaps_wf _ ocards _ ?_)
  obtain ⟨hc, hd, ha, hh, hl⟩ := hst
  exact ⟨hc, hd, ha, hh, hl⟩

theorem runMatchup_wf (tag : String) :
    ∀ (bs : List Battle) (st st2 : MatchupState),
      runMatchup tag st bs = Except.ok st2 → MatchupC st → MatchupC st2 := by
  intro bs
  induction bs with
  | nil =>
    intro st st2 h hst
    unfold runMatchup at h
    injection h with h2
    rw [← h2]
    exact hst
  | cons b bs ih =>
    intro st st2 h hst
    unfold runMatchup processMatchupBattle at h
    revert h
    by_cases hty : (b.type == "PvP" || b.type == "pathOfLegend") = true
    · rw [if_pos hty]
      cases resolveTeam tag b with
      | none =>
        try simp only []
        cases b.opponent.head? with
        | none =>
          intro h
          try simp only [] at h
          exact ih st st2 h hst
        | some opp =>
          intro h
          try simp only [] at h
          exact ih st st2 h hst
      | some player =>
        try simp only []
        cases b.opponent.head? with
        | none =>
          intro h
          try simp only [] at h
          exact ih st st2 h hst
        | some opp =>
          try simp only []
          cases opp.cards with
          | none => intro h; simp at h
          | some ocards =>
            intro h
            try simp only [] at h
            exact ih _ st2 h (matchupUpdate_wf st player opp ocards hst)
    · rw [if_neg hty]
      intro h
      simp only [] at h
      exact ih st st2 h hst

def UsageWF (st : UsageState) : Prop :=
  (∀ p ∈ st.cardCounts, bucketOK (Prod.snd p).count (Prod.snd p).wins)
    ∧ (∀ p ∈ st.deckCounts, bucketOK (Prod.snd p).count (Prod.snd p).wins
        ∧ ∀ v ∈ (Prod.snd p).variants, bucketOK (Prod.snd v).count (Prod.snd v).wins)

def MatchupWF (st : MatchupState) : Prop :=
  (∀ p ∈ st.cardStats, bucketOK (Prod.snd p).faced (Prod.snd p).wins)
    ∧ (∀ p ∈ st.deckStats, bucketOK (Prod.snd p).faced (Prod.snd p).wins)
    ∧ (∀ p ∈ st.archetypeStats, bucketOK (Prod.snd p).faced (Prod.snd p).wins)
    ∧ gapOK st.higherFaced st.higherWins
    ∧ gapOK st.lowerFaced st.lowerWins

def exceptOK {σ : Type} (W : σ → Prop) : Except Unit σ → Prop
  | Except.ok st => W st
  | Except.error _ => True

/-- C8: whenever aggregation completes, every bucket of every aggregation
(per card, per deck and variant, per opposing card, deck, archetype, and per
trophy-gap bucket) has wins bounded by its count, so every rate lies in the
unit interval. -/
theorem spec_c8_rates_in_unit_interval (tag : String) (battles : List Battle) :
    exceptOK UsageWF (aggregateUsage tag battles)
      ∧ exceptOK MatchupWF (aggregateMatchup tag battles) := by
  constructor
  · unfold aggregateUsage
    cases hu : runUsage tag ⟨[], []⟩ (battles.filter validUsageBattle) with
    | error e => exact trivial
    | ok st =>
      have hc : UsageC st := runUsage_wf tag _ _ _ hu ⟨by simp, by simp⟩
      exact ⟨fun p hp => counterOK_bucketOK (hc.1 p hp),
        fun p hp => ⟨counterOK_bucketOK (hc.2 p hp).1,
          fun v hv => counterOK_bucketOK ((hc.2 p hp).2 v hv)⟩⟩
  · unfold aggregateMatchup
    cases hm : runMatchup tag initMatchup battles with
    | error e => exact trivial
    | ok st =>
      have hc : MatchupC st := runMatchup_wf tag _ _ _ hm
        ⟨by simp [initMatchup], by simp [initMatchup], by simp [initMatchup],
         by simp [initMatchup], by simp [initMatchup]⟩
      exact ⟨fun p hp => counterOK_bucketOK (hc.1 p hp),
        fun p hp => counterOK_bucketOK (hc.2.1 p hp),
        fun p hp => counterOK_bucketOK (hc.2.2.1 p hp),
        le_gapOK hc.2.2.2.1, le_gapOK hc.2.2.2.2⟩
